import Mathlib

/-!
Verification of the command-catalog and unknown-command suggestion engine
of `help.c` (git's command-resolution and error-recovery layer), shallowly
embedded in Lean.

Command names are ASCII byte strings; `strcmp`-style comparison is embedded
as a structural lexicographic order on the character lists of Lean strings,
and `starts_with` as a structural prefix test, so that all definitions are
executable and kernel-reducible.

The external edit-distance function (`levenshtein.c`, outside this file's
source) is kept abstract as a parameter `lev : String → String → Nat`: no
verified property depends on its concrete values, only on the `+ 1` offset
applied by the scoring loop.
-/

/-- Lexicographic strict order on character lists: the embedding of C's
`strcmp(a, b) < 0` for the command names compared throughout `help.c`. -/
def charsLt : List Char → List Char → Bool
  | [], [] => false
  | [], _ :: _ => true
  | _ :: _, [] => false
  | a :: as, b :: bs =>
    if a < b then true
    else if b < a then false
    else charsLt as bs

/-- C's `strcmp(a, b) < 0` on strings. -/
def strLt (a b : String) : Bool := charsLt a.data b.data

/-- Structural prefix test on character lists: `charsStart p s` holds when
the characters `p` begin the characters `s`. -/
def charsStart : List Char → List Char → Bool
  | [], _ => true
  | _ :: _, [] => false
  | a :: as, b :: bs => if a = b then charsStart as bs else false

/-- C's `starts_with(s, p)`: does the string `s` begin with `p`? -/
def starts_with (s p : String) : Bool := charsStart p.data s.data

/-- One entry of a `struct cmdnames` catalog: a command name together with
the numeric field `len`, which initially holds the name's byte length and
is later overwritten with a similarity score (the comment at help.c line
431 reads: "This abuses cmdname->len for levenshtein distance"). -/
structure Cmdname where
  name : String
  len : Nat
deriving DecidableEq, Repr

/-- C's `is_in_cmdlist` (help.c lines 357-364): linear scan of a catalog
for an exact name match. -/
def is_in_cmdlist (c : List Cmdname) (s : String) : Bool :=
  c.any (fun e => e.name == s)

/-- The loop of C's `uniq` (help.c lines 49-54): `prev` is the last kept
entry (`names[j-1]`); an entry whose name equals it is dropped (freed),
otherwise the entry is kept and becomes the new `prev`. -/
def uniqAux (prev : Cmdname) : List Cmdname → List Cmdname
  | [] => []
  | y :: ys => if y.name = prev.name then uniqAux prev ys else y :: uniqAux y ys

/-- C's `uniq` (help.c lines 42-57): keep the first entry, then collapse
consecutive equal-name entries onto the last kept one. -/
def uniq : List Cmdname → List Cmdname
  | [] => []
  | x :: xs => x :: uniqAux x xs

/-- C's `exclude_cmds` (help.c lines 59-80): a two-pointer co-sorted merge
that removes from `cmds` every entry whose name also occurs in `excludes`.
A `strcmp < 0` keeps the entry, equality drops (frees) it and consumes the
exclude entry, and `strcmp > 0` advances only the exclude pointer; the
remaining tail of `cmds` is kept unchanged. -/
def exclude_cmds : List Cmdname → List Cmdname → List Cmdname
  | [], _ => []
  | c :: cs, [] => c :: cs
  | c :: cs, e :: es =>
    if strLt c.name e.name then c :: exclude_cmds cs (e :: es)
    else if c.name = e.name then exclude_cmds cs es
    else exclude_cmds (c :: cs) es
termination_by l₁ l₂ => l₁.length + l₂.length
decreasing_by
  all_goals simp only [List.length_cons]
  all_goals omega

/-- Reference form of run collapsing: keep the first entry of each maximal
run of consecutive equal-name entries and drop the rest of the run. -/
def collapseRuns : List Cmdname → List Cmdname
  | [] => []
  | x :: xs => x :: collapseRuns (xs.dropWhile (fun y => y.name == x.name))
termination_by l => l.length
decreasing_by
  exact Nat.lt_succ_of_le (List.Sublist.length_le (List.dropWhile_sublist _))

/-- The scoring loop of `help_unknown_cmd` (help.c lines 432-460).
The argument `cs` is the not-yet-consumed suffix of the sorted
common-command name list (the co-advancing pointer `n`); catalog entries
are processed in order.  An exact match with `cmd` makes the C code `die`
with the bad-interpreter advice, modelled as `none`.  Otherwise the
pointer advances past common names that compare below the candidate; if
the candidate is found there it is consumed, and when the candidate also
starts with `cmd` it receives score `0`; every other entry receives
`lev cmd candidate + 1`. -/
def scoreEntries (cmd : String) (lev : String → String → Nat) :
    List String → List Cmdname → Option (List Cmdname)
  | _, [] => some []
  | cs, e :: rest =>
    if e.name = cmd then none
    else
      match cs.dropWhile (fun c => strLt c e.name) with
      | [] =>
        (scoreEntries cmd lev [] rest).map
          (fun s => { name := e.name, len := lev cmd e.name + 1 } :: s)
      | c :: cs3 =>
        if c = e.name then
          if starts_with e.name cmd then
            (scoreEntries cmd lev cs3 rest).map
              (fun s => { name := e.name, len := 0 } :: s)
          else
            (scoreEntries cmd lev cs3 rest).map
              (fun s => { name := e.name, len := lev cmd e.name + 1 } :: s)
        else
          (scoreEntries cmd lev (c :: cs3) rest).map
            (fun s => { name := e.name, len := lev cmd e.name + 1 } :: s)

/-- C's `levenshtein_compare` (help.c lines 382-389) as a Boolean
"less or equal": compare the re-used `len` field, which at sort time holds
the similarity score, and break ties by `strcmp` on the names. -/
def scoreLE (a b : Cmdname) : Bool :=
  decide (a.len < b.len) || (a.len == b.len && !(strLt b.name a.name))

/-- Propositional form of `scoreLE`. -/
def scoreLEP (a b : Cmdname) : Prop :=
  a.len < b.len ∨ (a.len = b.len ∧ strLt b.name a.name = false)

/-- Insertion into a list sorted by `scoreLE`. -/
def insertScored (e : Cmdname) : List Cmdname → List Cmdname
  | [] => [e]
  | x :: xs => if scoreLE e x then e :: x :: xs else x :: insertScored e xs

/-- The `QSORT(main_cmds.names, main_cmds.cnt, levenshtein_compare)`
re-sort (help.c line 463).  The catalog reaching this sort is
deduplicated, so `levenshtein_compare` is antisymmetric on it and every
correct sort yields the same list; insertion sort realises it here. -/
def sortScore : List Cmdname → List Cmdname
  | [] => []
  | e :: xs => insertScored e (sortScore xs)

/-- The empirically derived magic number of help.c line 403. -/
def SIMILARITY_FLOOR : Nat := 7

/-- The zero-run count and best-similarity selection of help.c lines
468-482, returning the pair `(best_similarity, n)`: skip and count the
leading zero-score prefix matches; if they cover the whole catalog, force
`best_similarity` past the floor, otherwise take the first remaining score
as `best_similarity` and let `n` also cover the entries tied with it. -/
def bestN (sorted : List Cmdname) : Nat × Nat :=
  match sorted.dropWhile (fun e => e.len == 0) with
  | [] => (SIMILARITY_FLOOR + 1, (sorted.takeWhile (fun e => e.len == 0)).length)
  | b :: bs =>
    (b.len, (sorted.takeWhile (fun e => e.len == 0)).length + 1 +
      (bs.takeWhile (fun e => e.len == b.len)).length)

/-- The observable outcome of `help_unknown_cmd`: the bad-interpreter
`die`, the empty-catalog `die`, the auto-accepted substitute name (the
only outcome that returns to the caller), the failure exit that lists the
ranked suggestions, and the plain not-a-git-command failure exit. -/
inductive Outcome where
  | fatalBadInterpreter
  | noCommandsFound
  | autoAccepted (assumed : String)
  | suggestions (names : List String)
  | notFound
deriving DecidableEq, Repr

/-- C's `help_unknown_cmd` (help.c lines 410-519) from the point where the
merged, re-sorted, deduplicated catalog and the sorted common-command name
list exist: score every entry (dying on an exact match), re-sort by score,
die if the catalog is empty, compute `(best_similarity, n)`, auto-accept
the front entry when autocorrect is on, `n` is exactly 1 and the best
score is under the floor, list the first `n` entries as suggestions when
the best score is under the floor, and otherwise fail plainly. -/
def help_unknown_cmd (cmd : String) (lev : String → String → Nat)
    (common : List String) (catalog : List Cmdname) (autocorrect : Int) : Outcome :=
  match scoreEntries cmd lev common catalog with
  | none => .fatalBadInterpreter
  | some scored =>
    if h : sortScore scored = [] then .noCommandsFound
    else
      if autocorrect ≠ 0 ∧ (bestN (sortScore scored)).2 = 1 ∧
          (bestN (sortScore scored)).1 < SIMILARITY_FLOOR then
        .autoAccepted ((sortScore scored).head h).name
      else if (bestN (sortScore scored)).1 < SIMILARITY_FLOOR then
        .suggestions (((sortScore scored).take (bestN (sortScore scored)).2).map
          (fun e => e.name))
      else .notFound

/-- The catalog invariant: entries strictly sorted by name under `strcmp`,
hence duplicate-free. -/
def NameSorted (l : List Cmdname) : Prop :=
  l.Pairwise (fun a b => strLt a.name b.name = true)

/-- Strictly sorted plain name list (the common-command table shape). -/
def StrSorted (l : List String) : Prop :=
  l.Pairwise (fun a b => strLt a b = true)

/-- The tie-breaking order the specification claims for the score re-sort:
score ascending, then name length ascending, then lexicographic name. -/
def claimedTieOrder (a b : Cmdname) : Bool :=
  decide (a.len < b.len) ||
    (a.len == b.len &&
      (decide (a.name.length < b.name.length) ||
        (a.name.length == b.name.length && !(strLt b.name a.name))))

/-- Closed-form characterisation of the score the loop assigns, given the
suffix `cs` of the common-command list in force when the entry is
reached. -/
def specScore (cmd : String) (lev : String → String → Nat)
    (cs : List String) (s : String) : Nat :=
  if s ∈ cs ∧ starts_with s cmd then 0 else lev cmd s + 1

/-! ## Order facts for the embedded strcmp -/

theorem charsLt_irrefl : ∀ l : List Char, charsLt l l = false
  | [] => rfl
  | a :: as => by
    simp only [charsLt, if_neg (lt_irrefl a)]
    exact charsLt_irrefl as

theorem charsLt_trans : ∀ l₁ l₂ l₃ : List Char,
    charsLt l₁ l₂ = true → charsLt l₂ l₃ = true → charsLt l₁ l₃ = true := by
  intro l₁
  induction l₁ with
  | nil =>
    intro l₂ l₃ h1 h2
    cases l₂ with
    | nil => exact h2
    | cons b bs =>
      cases l₃ with
      | nil => simp [charsLt] at h2
      | cons c cs => simp [charsLt]
  | cons a as ih =>
    intro l₂ l₃ h1 h2
    cases l₂ with
    | nil => simp [charsLt] at h1
    | cons b bs =>
      cases l₃ with
      | nil => simp [charsLt] at h2
      | cons c cs =>
        simp only [charsLt] at h1 h2 ⊢
        by_cases hab : a < b
        · by_cases hbc : b < c
          · rw [if_pos (lt_trans hab hbc)]
          · by_cases hcb : c < b
            · rw [if_neg hbc, if_pos hcb] at h2; exact absurd h2 (by simp)
            · have hbceq : b = c := le_antisymm (not_lt.mp hcb) (not_lt.mp hbc)
              subst hbceq
              rw [if_pos hab]
        · by_cases hba : b < a
          · rw [if_neg hab, if_pos hba] at h1; exact absurd h1 (by simp)
          · have habeq : a = b := le_antisymm (not_lt.mp hba) (not_lt.mp hab)
            subst habeq
            rw [if_neg hab, if_neg hba] at h1
            by_cases hac : a < c
            · rw [if_pos hac]
            · by_cases hca : c < a
              · rw [if_neg hac, if_pos hca] at h2; exact absurd h2 (by simp)
              · have haceq : a = c := le_antisymm (not_lt.mp hca) (not_lt.mp hac)
                subst haceq
                simp only [if_neg hac] at h2 ⊢
                exact ih bs cs h1 h2

theorem charsLt_eq_of_not : ∀ l₁ l₂ : List Char,
    charsLt l₁ l₂ = false → charsLt l₂ l₁ = false → l₁ = l₂ := by
  intro l₁
  induction l₁ with
  | nil =>
    intro l₂ h1 h2
    cases l₂ with
    | nil => rfl
    | cons b bs => simp [charsLt] at h1
  | cons a as ih =>
    intro l₂ h1 h2
    cases l₂ with
    | nil => simp [charsLt] at h2
    | cons b bs =>
      simp only [charsLt] at h1 h2
      by_cases hab : a < b
      · rw [if_pos hab] at h1; exact absurd h1 (by simp)
      · by_cases hba : b < a
        · rw [if_pos hba] at h2; exact absurd h2 (by simp)
        · have habeq : a = b := le_antisymm (not_lt.mp hba) (not_lt.mp hab)
          subst habeq
          rw [if_neg hab, if_neg hba] at h1 h2
          rw [ih bs h1 h2]

theorem strLt_irrefl (s : String) : strLt s s = false := charsLt_irrefl _

theorem strLt_trans {a b c : String} (h1 : strLt a b = true) (h2 : strLt b c = true) :
    strLt a c = true := charsLt_trans _ _ _ h1 h2

theorem strLt_eq_of_not {a b : String} (h1 : strLt a b = false) (h2 : strLt b a = false) :
    a = b := by
  have h := charsLt_eq_of_not _ _ h1 h2
  cases a; cases b
  exact congrArg String.mk h

theorem strLt_ne {a b : String} (h : strLt a b = true) : a ≠ b := by
  rintro rfl
  rw [strLt_irrefl] at h
  exact Bool.noConfusion h

theorem strLt_of_not_of_ne {a b : String} (h1 : strLt a b = false) (h2 : a ≠ b) :
    strLt b a = true := by
  cases hba : strLt b a with
  | false => exact absurd (strLt_eq_of_not h1 hba) h2
  | true => rfl

theorem strLe_trans {a b c : String} (h1 : strLt b a = false) (h2 : strLt c b = false) :
    strLt c a = false := by
  cases hca : strLt c a with
  | false => rfl
  | true =>
    exfalso
    by_cases hab : a = b
    · subst hab; rw [hca] at h2; exact Bool.noConfusion h2
    · have h3 : strLt a b = true := strLt_of_not_of_ne h1 (Ne.symm hab)
      by_cases hbc : b = c
      · subst hbc
        have h4 := strLt_trans h3 hca
        rw [strLt_irrefl] at h4; exact Bool.noConfusion h4
      · have h4 : strLt b c = true := strLt_of_not_of_ne h2 (Ne.symm hbc)
        have h5 := strLt_trans (strLt_trans h3 h4) hca
        rw [strLt_irrefl] at h5; exact Bool.noConfusion h5

/-! ## Generic list helpers -/

theorem dropWhile_cons_false {α : Type} {p : α → Bool} :
    ∀ {l : List α} {c : α} {cs : List α}, l.dropWhile p = c :: cs → p c = false := by
  intro l
  induction l with
  | nil => intro c cs h; simp [List.dropWhile] at h
  | cons a as ih =>
    intro c cs h
    rw [List.dropWhile_cons] at h
    cases hpa : p a with
    | true => rw [if_pos hpa] at h; exact ih h
    | false =>
      rw [if_neg (by simp [hpa])] at h
      cases h
      exact hpa

/-! ## The score re-sort -/

theorem scoreLE_iff {a b : Cmdname} : scoreLE a b = true ↔ scoreLEP a b := by
  simp [scoreLE, scoreLEP, Bool.or_eq_true, Bool.and_eq_true, decide_eq_true_iff,
    beq_iff_eq, Bool.not_eq_true']

theorem scoreLEP_trans {a b c : Cmdname} (h1 : scoreLEP a b) (h2 : scoreLEP b c) :
    scoreLEP a c := by
  rcases h1 with h1 | ⟨e1, h1⟩
  · rcases h2 with h2 | ⟨e2, h2⟩
    · exact Or.inl (lt_trans h1 h2)
    · exact Or.inl (e2 ▸ h1)
  · rcases h2 with h2 | ⟨e2, h2⟩
    · exact Or.inl (e1 ▸ h2)
    · exact Or.inr ⟨e1.trans e2, strLe_trans h1 h2⟩

theorem scoreLEP_total (a b : Cmdname) : scoreLEP a b ∨ scoreLEP b a := by
  rcases Nat.lt_trichotomy a.len b.len with h | h | h
  · exact Or.inl (Or.inl h)
  · cases hab : strLt b.name a.name with
    | false => exact Or.inl (Or.inr ⟨h, hab⟩)
    | true =>
      refine Or.inr (Or.inr ⟨h.symm, ?_⟩)
      cases hba : strLt a.name b.name with
      | false => rfl
      | true =>
        exfalso
        have h2 := strLt_trans hba hab
        rw [strLt_irrefl] at h2; exact Bool.noConfusion h2
  · exact Or.inr (Or.inl h)

theorem insertScored_perm (e : Cmdname) : ∀ l, (insertScored e l).Perm (e :: l)
  | [] => List.Perm.refl _
  | x :: xs => by
    simp only [insertScored]
    by_cases h : scoreLE e x = true
    · rw [if_pos h]
    · rw [if_neg h]
      exact (List.Perm.cons x (insertScored_perm e xs)).trans (List.Perm.swap e x xs)

theorem sortScore_perm : ∀ l, (sortScore l).Perm l
  | [] => List.Perm.refl _
  | e :: xs => (insertScored_perm e (sortScore xs)).trans (List.Perm.cons e (sortScore_perm xs))

theorem mem_sortScore {x : Cmdname} {l : List Cmdname} : x ∈ sortScore l ↔ x ∈ l :=
  (sortScore_perm l).mem_iff

theorem length_sortScore (l : List Cmdname) : (sortScore l).length = l.length :=
  (sortScore_perm l).length_eq

theorem pairwise_insertScored {e : Cmdname} :
    ∀ {l : List Cmdname}, l.Pairwise scoreLEP → (insertScored e l).Pairwise scoreLEP := by
  intro l
  induction l with
  | nil => intro _; simp [insertScored]
  | cons x xs ih =>
    intro hp
    rw [List.pairwise_cons] at hp
    obtain ⟨hx, hxs⟩ := hp
    simp only [insertScored]
    by_cases h : scoreLE e x = true
    · rw [if_pos h]
      refine List.Pairwise.cons ?_ (List.Pairwise.cons hx hxs)
      intro y hy
      rcases List.mem_cons.mp hy with rfl | hy'
      · exact scoreLE_iff.mp h
      · exact scoreLEP_trans (scoreLE_iff.mp h) (hx y hy')
  
    · rw [if_neg h]
      refine List.Pairwise.cons ?_ (ih hxs)
      intro y hy
      rcases List.mem_cons.mp ((insertScored_perm e xs).mem_iff.mp hy) with rfl | hy'
      · rcases scoreLEP_total x y with h1 | h1
        · exact h1
        · exact absurd (scoreLE_iff.mpr h1) h
      · exact hx y hy'

theorem sortScore_pairwise : ∀ l : List Cmdname, (sortScore l).Pairwise scoreLEP
  | [] => List.Pairwise.nil
  | e :: xs => pairwise_insertScored (sortScore_pairwise xs)

/-! ## Membership scan and set exclusion -/

theorem is_in_cmdlist_iff {l : List Cmdname} {s : String} :
    is_in_cmdlist l s = true ↔ ∃ e ∈ l, e.name = s := by
  simp [is_in_cmdlist, List.any_eq_true, beq_iff_eq]

theorem is_in_cmdlist_eq_false {l : List Cmdname} {s : String}
    (h : ∀ e ∈ l, e.name ≠ s) : is_in_cmdlist l s = false := by
  cases hv : is_in_cmdlist l s with
  | false => rfl
  | true =>
    obtain ⟨e, he, hes⟩ := is_in_cmdlist_iff.mp hv
    exact absurd hes (h e he)

theorem is_in_cmdlist_cons {e : Cmdname} {es : List Cmdname} {s : String} :
    is_in_cmdlist (e :: es) s = (e.name == s || is_in_cmdlist es s) := by
  simp [is_in_cmdlist]

theorem exclude_cmds_eq_filter :
    ∀ cmds excludes : List Cmdname, NameSorted cmds → NameSorted excludes →
      exclude_cmds cmds excludes =
        cmds.filter (fun x => !(is_in_cmdlist excludes x.name)) := by
  intro cmds excludes
  induction cmds, excludes using exclude_cmds.induct with
  | case1 x =>
    intro _ _
    simp [exclude_cmds]
  | case2 c cs =>
    intro _ _
    simp [exclude_cmds, is_in_cmdlist]
  | case3 c cs e es hlt ih =>
    intro hc he
    unfold NameSorted at hc he
    rw [List.pairwise_cons] at hc he
    obtain ⟨hcall, hcs⟩ := hc
    obtain ⟨heall, hes⟩ := he
    have hnotin : is_in_cmdlist (e :: es) c.name = false := by
      refine is_in_cmdlist_eq_false ?_
      intro x hx
      rcases List.mem_cons.mp hx with rfl | hx'
      · exact fun hq => strLt_ne hlt hq.symm
      · exact fun hq => strLt_ne (strLt_trans hlt (heall x hx')) hq.symm
    simp only [exclude_cmds, if_pos hlt]
    rw [List.filter_cons, if_pos (by simp [hnotin])]
    exact congrArg (c :: ·)
      (ih hcs (by unfold NameSorted; rw [List.pairwise_cons]; exact ⟨heall, hes⟩))
  | case4 c cs e es hnlt heq ih =>
    intro hc he
    unfold NameSorted at hc he
    rw [List.pairwise_cons] at hc he
    obtain ⟨hcall, hcs⟩ := hc
    obtain ⟨heall, hes⟩ := he
    have hin : is_in_cmdlist (e :: es) c.name = true := by
      rw [is_in_cmdlist_cons]
      simp [heq]
    simp only [exclude_cmds, if_neg hnlt, if_pos heq]
    rw [List.filter_cons, if_neg (by simp [hin])]
    rw [ih hcs hes]
    refine List.filter_congr ?_
    intro x hx
    have hne : e.name ≠ x.name := heq ▸ strLt_ne (hcall x hx)
    rw [is_in_cmdlist_cons, beq_eq_false_iff_ne.mpr hne, Bool.false_or]
  | case5 c cs e es hnlt hne ih =>
    intro hc he
    unfold NameSorted at he
    rw [List.pairwise_cons] at he
    obtain ⟨heall, hes⟩ := he
    have hcef : strLt c.name e.name = false := by
      cases hv : strLt c.name e.name with
      | false => rfl
      | true => exact absurd hv hnlt
    have hec : strLt e.name c.name = true := strLt_of_not_of_ne hcef hne
    simp only [exclude_cmds, if_neg hnlt, if_neg hne]
    rw [ih hc hes]
    refine List.filter_congr ?_
    intro x hx
    have hnex : e.name ≠ x.name := by
      rcases List.mem_cons.mp hx with rfl | hx'
      · exact fun hq => hne hq.symm
      · have hcx : strLt c.name x.name = true := by
          unfold NameSorted at hc
          rw [List.pairwise_cons] at hc
          exact hc.1 x hx'
        exact strLt_ne (strLt_trans hec hcx)
    rw [is_in_cmdlist_cons, beq_eq_false_iff_ne.mpr hnex, Bool.false_or]

/-! ## Deduplication -/

theorem uniqAux_eq_collapse :
    ∀ (l : List Cmdname) (prev : Cmdname),
      uniqAux prev l = collapseRuns (l.dropWhile (fun y => y.name == prev.name)) := by
  intro l
  induction l with
  | nil => intro prev; simp [uniqAux, collapseRuns]
  | cons y ys ih =>
    intro prev
    simp only [uniqAux]
    by_cases h : y.name = prev.name
    · rw [if_pos h, List.dropWhile_cons, if_pos (by simp [h])]
      exact ih prev
    · rw [if_neg h, List.dropWhile_cons, if_neg (by simp [h])]
      rw [collapseRuns]
      rw [ih y]

theorem uniq_eq_collapseRuns (l : List Cmdname) : uniq l = collapseRuns l := by
  cases l with
  | nil => simp [uniq, collapseRuns]
  | cons x xs =>
    simp only [uniq]
    rw [collapseRuns]
    rw [uniqAux_eq_collapse xs x]

theorem uniqAux_of_ne :
    ∀ (l : List Cmdname) (prev : Cmdname),
      List.Chain' (fun a b : Cmdname => a.name ≠ b.name) (prev :: l) →
      uniqAux prev l = l := by
  intro l
  induction l with
  | nil => intro _ _; rfl
  | cons y ys ih =>
    intro prev h
    rw [List.chain'_cons] at h
    obtain ⟨h1, h2⟩ := h
    simp only [uniqAux]
    rw [if_neg (fun hh => h1 hh.symm)]
    rw [ih y h2]

theorem uniq_of_sorted {l : List Cmdname} (h : NameSorted l) : uniq l = l := by
  cases l with
  | nil => rfl
  | cons x xs =>
    simp only [uniq]
    unfold NameSorted at h
    have hch : List.Chain' (fun a b : Cmdname => a.name ≠ b.name) (x :: xs) :=
      h.chain'.imp (fun {a b} hab => strLt_ne hab)
    rw [uniqAux_of_ne xs x hch]

/-! ## The scoring loop -/

theorem specScore_congr {cmd : String} {lev : String → String → Nat}
    {cs cs' : List String} {s : String} (h : s ∈ cs ↔ s ∈ cs') :
    specScore cmd lev cs s = specScore cmd lev cs' s := by
  unfold specScore
  by_cases hin : s ∈ cs' ∧ starts_with s cmd = true
  · rw [if_pos hin, if_pos ⟨h.mpr hin.1, hin.2⟩]
  · rw [if_neg hin, if_neg (fun hq => hin ⟨h.mp hq.1, hq.2⟩)]

theorem specScore_of_not_mem {cmd : String} {lev : String → String → Nat}
    {cs : List String} {s : String} (h : s ∉ cs) :
    specScore cmd lev cs s = lev cmd s + 1 := by
  unfold specScore
  rw [if_neg (fun hq => h hq.1)]

theorem specScore_of_mem_starts {cmd : String} {lev : String → String → Nat}
    {cs : List String} {s : String} (h1 : s ∈ cs) (h2 : starts_with s cmd = true) :
    specScore cmd lev cs s = 0 := by
  unfold specScore
  rw [if_pos ⟨h1, h2⟩]

theorem specScore_of_not_starts {cmd : String} {lev : String → String → Nat}
    {cs : List String} {s : String} (h2 : starts_with s cmd = false) :
    specScore cmd lev cs s = lev cmd s + 1 := by
  unfold specScore
  rw [if_neg (fun hq => by rw [hq.2] at h2; exact Bool.noConfusion h2)]

theorem scoreEntries_eq_none {cmd : String} {lev : String → String → Nat} :
    ∀ {l : List Cmdname} (cs : List String), (∃ e ∈ l, e.name = cmd) →
      scoreEntries cmd lev cs l = none := by
  intro l
  induction l with
  | nil =>
    intro cs h
    obtain ⟨e, he, _⟩ := h
    exact absurd he (List.not_mem_nil e)
  | cons e rest ih =>
    intro cs h
    simp only [scoreEntries]
    split
    · rfl
    · rename_i hh
      have hrest : ∃ x ∈ rest, x.name = cmd := by
        obtain ⟨x, hx, hxe⟩ := h
        rcases List.mem_cons.mp hx with rfl | hx'
        · exact absurd hxe hh
        · exact ⟨x, hx', hxe⟩
      split
      · rw [ih [] hrest]; rfl
      · split
        · split
          · rw [ih _ hrest]; rfl
          · rw [ih _ hrest]; rfl
        · rw [ih _ hrest]; rfl

theorem scoreEntries_map_name {cmd : String} {lev : String → String → Nat} :
    ∀ {l : List Cmdname} {cs : List String} {scored : List Cmdname},
      scoreEntries cmd lev cs l = some scored →
      scored.map (fun x => x.name) = l.map (fun x => x.name) := by
  intro l
  induction l with
  | nil =>
    intro cs scored h
    simp only [scoreEntries] at h
    injection h with h
    subst h
    rfl
  | cons e rest ih =>
    intro cs scored h
    simp only [scoreEntries] at h
    split at h
    · exact absurd h (by simp)
    · split at h
      · rw [Option.map_eq_some'] at h
        obtain ⟨s, hs, rfl⟩ := h
        simp only [List.map_cons]
        rw [ih hs]
      · split at h
        · split at h
          · rw [Option.map_eq_some'] at h
            obtain ⟨s, hs, rfl⟩ := h
            simp only [List.map_cons]
            rw [ih hs]
          · rw [Option.map_eq_some'] at h
            obtain ⟨s, hs, rfl⟩ := h
            simp only [List.map_cons]
            rw [ih hs]
        · rw [Option.map_eq_some'] at h
          obtain ⟨s, hs, rfl⟩ := h
          simp only [List.map_cons]
          rw [ih hs]

theorem scoreEntries_names_ne {cmd : String} {lev : String → String → Nat} :
    ∀ {l : List Cmdname} {cs : List String} {scored : List Cmdname},
      scoreEntries cmd lev cs l = some scored → ∀ x ∈ l, x.name ≠ cmd := by
  intro l
  induction l with
  | nil => intro cs scored _ x hx; exact absurd hx (List.not_mem_nil x)
  | cons e rest ih =>
    intro cs scored h x hx
    simp only [scoreEntries] at h
    split at h
    · exact absurd h (by simp)
    · rename_i hh
      rcases List.mem_cons.mp hx with rfl | hx'
      · exact hh
      · split at h
        · rw [Option.map_eq_some'] at h
          obtain ⟨s, hs, -⟩ := h
          exact ih hs x hx'
        · split at h
          · split at h
            · rw [Option.map_eq_some'] at h
              obtain ⟨s, hs, -⟩ := h
              exact ih hs x hx'
            · rw [Option.map_eq_some'] at h
              obtain ⟨s, hs, -⟩ := h
              exact ih hs x hx'
          · rw [Option.map_eq_some'] at h
            obtain ⟨s, hs, -⟩ := h
            exact ih hs x hx'

theorem scoreEntries_eq_map {cmd : String} {lev : String → String → Nat} :
    ∀ (l : List Cmdname) (cs : List String), NameSorted l → StrSorted cs →
      (∀ x ∈ l, x.name ≠ cmd) →
      scoreEntries cmd lev cs l =
        some (l.map (fun x => { name := x.name, len := specScore cmd lev cs x.name })) := by
  intro l
  induction l with
  | nil => intro cs _ _ _; rfl
  | cons e rest ih =>
    intro cs hl hcs hne
    have hne_e : e.name ≠ cmd := hne e (List.mem_cons_self e rest)
    unfold NameSorted at hl
    rw [List.pairwise_cons] at hl
    obtain ⟨hrel, hrest⟩ := hl
    have hrest' : NameSorted rest := hrest
    have hne_rest : ∀ x ∈ rest, x.name ≠ cmd :=
      fun x hx => hne x (List.mem_cons_of_mem _ hx)
    have htake : ∀ c ∈ cs.takeWhile (fun c => strLt c e.name), strLt c e.name = true := by
      intro c hc
      exact @List.mem_takeWhile_imp String (fun c => strLt c e.name) cs c hc
    have hsplit :
        cs.takeWhile (fun c => strLt c e.name) ++ cs.dropWhile (fun c => strLt c e.name) = cs :=
      List.takeWhile_append_dropWhile (fun c => strLt c e.name) cs
    have hmem : ∀ s : String, strLt e.name s = true →
        (s ∈ cs ↔ s ∈ cs.dropWhile (fun c => strLt c e.name)) := by
      intro s hs
      constructor
      · intro hin
        rcases List.mem_append.mp (hsplit ▸ hin) with h1 | h1
        · have h2 := strLt_trans (htake s h1) hs
          rw [strLt_irrefl] at h2
          exact Bool.noConfusion h2
        · exact h1
      · intro hin
        exact hsplit ▸ List.mem_append.mpr (Or.inr hin)
    have hmem_e : e.name ∈ cs ↔ e.name ∈ cs.dropWhile (fun c => strLt c e.name) := by
      constructor
      · intro hin
        rcases List.mem_append.mp (hsplit ▸ hin) with h1 | h1
        · have h2 := htake _ h1
          rw [strLt_irrefl] at h2
          exact Bool.noConfusion h2
        · exact h1
      · intro hin
        exact hsplit ▸ List.mem_append.mpr (Or.inr hin)
    have hsub : StrSorted (cs.dropWhile (fun c => strLt c e.name)) := by
      unfold StrSorted at hcs ⊢
      exact hcs.sublist (List.dropWhile_sublist _)
    simp only [scoreEntries]
    rw [if_neg hne_e]
    split
    · rename_i hd
      have hnotin : e.name ∉ cs := by
        rw [hmem_e, hd]
        exact List.not_mem_nil _
      rw [ih [] hrest' List.Pairwise.nil hne_rest]
      simp only [Option.map_some', List.map_cons]
      refine congrArg some (congrArg₂ (· :: ·) ?_ ?_)
      · rw [specScore_of_not_mem hnotin]
      · refine List.map_congr_left ?_
        intro x hx
        have hx1 : x.name ∉ cs := by
          rw [hmem x.name (hrel x hx), hd]
          exact List.not_mem_nil _
        rw [specScore_of_not_mem (List.not_mem_nil _),
          specScore_of_not_mem hx1]
    · rename_i c cs3 hd
      have hsub3 : StrSorted (c :: cs3) := hd ▸ hsub
      have hc_false : strLt c e.name = false :=
        @dropWhile_cons_false String (fun x => strLt x e.name) cs c cs3 hd
      split
      · rename_i hc
        have hin_e : e.name ∈ cs := by
          rw [hmem_e, hd]
          exact hc ▸ List.mem_cons_self c cs3
        have hcs3 : StrSorted cs3 := by
          unfold StrSorted at hsub3 ⊢
          exact (List.pairwise_cons.mp hsub3).2
        have hcongr : ∀ x ∈ rest,
            specScore cmd lev cs3 x.name = specScore cmd lev cs x.name := by
          intro x hx
          refine specScore_congr (Iff.symm ?_)
          rw [hmem x.name (hrel x hx), hd]
          constructor
          · intro hq
            rcases List.mem_cons.mp hq with hq' | hq'
            · exact absurd (hq'.trans hc).symm (strLt_ne (hrel x hx))
            · exact hq'
          · exact fun hq => List.mem_cons_of_mem _ hq
        split
        · rename_i hst
          rw [ih cs3 hrest' hcs3 hne_rest]
          simp only [Option.map_some', List.map_cons]
          refine congrArg some (congrArg₂ (· :: ·) ?_ ?_)
          · rw [specScore_of_mem_starts hin_e hst]
          · exact List.map_congr_left (fun x hx => by rw [hcongr x hx])
        · rename_i hst
          rw [ih cs3 hrest' hcs3 hne_rest]
          simp only [Option.map_some', List.map_cons]
          refine congrArg some (congrArg₂ (· :: ·) ?_ ?_)
          · rw [specScore_of_not_starts (Bool.not_eq_true _ ▸ Bool.of_not_eq_true hst)]
          · exact List.map_congr_left (fun x hx => by rw [hcongr x hx])
      · rename_i hc
        have hnotin : e.name ∉ cs := by
          rw [hmem_e, hd]
          intro hq
          rcases List.mem_cons.mp hq with hq' | hq'
          · exact hc hq'.symm
          · unfold StrSorted at hsub3
            have := (List.pairwise_cons.mp hsub3).1 _ hq'
            rw [this] at hc_false
            exact Bool.noConfusion hc_false
        rw [ih (c :: cs3) hrest' hsub3 hne_rest]
        simp only [Option.map_some', List.map_cons]
        refine congrArg some (congrArg₂ (· :: ·) ?_ ?_)
        · rw [specScore_of_not_mem hnotin]
        · refine List.map_congr_left ?_
          intro x hx
          have hiff : x.name ∈ cs ↔ x.name ∈ c :: cs3 := by
            rw [hmem x.name (hrel x hx), hd]
          rw [specScore_congr hiff.symm]

/-! ## Best-similarity selection -/

theorem bestN_all_zero {l : List Cmdname} (h : ∀ e ∈ l, e.len = 0) :
    bestN l = (SIMILARITY_FLOOR + 1, l.length) := by
  have hdrop : l.dropWhile (fun e => e.len == 0) = [] :=
    List.dropWhile_eq_nil_iff.mpr (fun x hx => by simp [h x hx])
  have htake : l.takeWhile (fun e => e.len == 0) = l := by
    have h2 := List.takeWhile_append_dropWhile (fun e => e.len == 0) l
    rw [hdrop, List.append_nil] at h2
    exact h2
  unfold bestN
  rw [hdrop, htake]

theorem bestN_cons {l : List Cmdname} {b : Cmdname} {bs : List Cmdname}
    (hd : l.dropWhile (fun e => e.len == 0) = b :: bs) :
    bestN l = (b.len, (l.takeWhile (fun e => e.len == 0)).length + 1 +
      (bs.takeWhile (fun e => e.len == b.len)).length) := by
  unfold bestN
  rw [hd]

/-! ## The claims -/

/-- Claim C1: whenever some entry of the merged catalog is byte-equal to
the input command name, `help_unknown_cmd` terminates with the
bad-interpreter fatal diagnostic, for every autocorrect setting, every
common-command table and every edit-distance function. -/
theorem C1_exact_match_fatal
    (cmd : String) (lev : String → String → Nat) (common : List String)
    (catalog : List Cmdname) (autocorrect : Int)
    (h : ∃ e ∈ catalog, e.name = cmd) :
    help_unknown_cmd cmd lev common catalog autocorrect = Outcome.fatalBadInterpreter := by
  unfold help_unknown_cmd
  rw [scoreEntries_eq_none common h]

/-- Witness for C1 at the catalog containing exactly the entry named
"fetch" and the input "fetch". -/
theorem C1_witness :
    (∃ e ∈ [(⟨"fetch", 5⟩ : Cmdname)], e.name = "fetch") ∧
    help_unknown_cmd "fetch" (fun _ _ => 1) [] [⟨"fetch", 5⟩] 0
      = Outcome.fatalBadInterpreter := by
  refine ⟨by decide, ?_⟩
  exact C1_exact_match_fatal "fetch" (fun _ _ => 1) [] [⟨"fetch", 5⟩] 0 (by decide)

/-- Counterexample to claim C2: with the merged catalog consisting of the
single common command "checkout" and the input "check", autocorrect -1
does not produce the auto-accepted substitution the specification's
end-to-end example 2 promises. -/
theorem C2_counterexample :
    help_unknown_cmd "check" (fun _ _ => 1) ["checkout"] [⟨"checkout", 8⟩] (-1) ≠
      Outcome.autoAccepted "checkout" := by decide

/-- Amended claim C2: in that scenario the sole entry is a zero-score
prefix match, so the zero-run covers the whole catalog, the effective best
similarity is forced above the floor, and the outcome is the plain
not-a-git-command failure — for every edit-distance function, which the
run never consults. -/
theorem C2_amended (lev : String → String → Nat) :
    help_unknown_cmd "check" lev ["checkout"] [⟨"checkout", 8⟩] (-1)
      = Outcome.notFound := rfl

/-- Counterexample to claim C3: scoring the sorted catalog
["aaa", "az"] for input "a" (both common) gives two zero scores, and the
re-sort leaves "aaa" (length 3) before "az" (length 2), so equal-score
ties are not broken by name length as claimed: the claimed order demands
the shorter "az" first. -/
theorem C3_counterexample :
    scoreEntries "a" (fun _ _ => 1) ["aaa", "az"] [⟨"aaa", 3⟩, ⟨"az", 2⟩]
        = some [⟨"aaa", 0⟩, ⟨"az", 0⟩] ∧
    sortScore [⟨"aaa", 0⟩, ⟨"az", 0⟩] = [⟨"aaa", 0⟩, ⟨"az", 0⟩] ∧
    claimedTieOrder ⟨"aaa", 0⟩ ⟨"az", 0⟩ = false := by decide

/-- Amended claim C3: the re-sort orders the scored catalog by score
ascending with ties broken directly by lexicographic name order — at sort
time the numeric field holds the score, so name length plays no role —
and it permutes the scored entries. -/
theorem C3_amended (l : List Cmdname) :
    (sortScore l).Pairwise scoreLEP ∧ (sortScore l).Perm l :=
  ⟨sortScore_pairwise l, sortScore_perm l⟩

/-- Claim C4: with a nonzero autocorrect setting, when the best
similarity — the score `b.len` of the first entry after the zero-score
run of the re-sorted catalog — is under the floor and two or more scored
entries are tied at it, the engine never auto-accepts: it exits listing
the ranked suggestions, at least the two tied entries among them. -/
theorem C4_tie_refuses_auto_accept
    (cmd : String) (lev : String → String → Nat) (common : List String)
    (catalog : List Cmdname) (autocorrect : Int) (scored : List Cmdname)
    (b : Cmdname) (bs : List Cmdname)
    (hs : scoreEntries cmd lev common catalog = some scored)
    (hauto : autocorrect ≠ 0)
    (hd : (sortScore scored).dropWhile (fun e => e.len == 0) = b :: bs)
    (hbest : b.len < SIMILARITY_FLOOR)
    (htie : 2 ≤ scored.countP (fun e => e.len == b.len)) :
    ∃ ns, help_unknown_cmd cmd lev common catalog autocorrect
        = Outcome.suggestions ns ∧ 2 ≤ ns.length := by
  have hb0 : (b.len == 0) = false :=
    @dropWhile_cons_false Cmdname (fun e => e.len == 0) (sortScore scored) b bs hd
  have hb0' : b.len ≠ 0 := by simpa using hb0
  have hz : (sortScore scored).takeWhile (fun e => e.len == 0) ++ b :: bs
      = sortScore scored := by
    have h2 := List.takeWhile_append_dropWhile (fun e => e.len == 0) (sortScore scored)
    rw [hd] at h2
    exact h2
  have hcnt : 2 ≤ (sortScore scored).countP (fun e => e.len == b.len) := by
    rw [(sortScore_perm scored).countP_eq]
    exact htie
  have hAzero : ((sortScore scored).takeWhile (fun e => e.len == 0)).countP
      (fun e => e.len == b.len) = 0 := by
    rw [List.countP_eq_zero]
    intro x hx
    have hx0 : (fun e => e.len == 0) x = true :=
      @List.mem_takeWhile_imp Cmdname (fun e => e.len == 0) (sortScore scored) x hx
    simp only [beq_iff_eq] at hx0 ⊢
    omega
  have hsplitc : (sortScore scored).countP (fun e => e.len == b.len) =
      ((sortScore scored).takeWhile (fun e => e.len == 0)).countP (fun e => e.len == b.len) +
      (b :: bs).countP (fun e => e.len == b.len) :=
    (congrArg (List.countP (fun e => e.len == b.len)) hz.symm).trans
      (List.countP_append _ _ _)
  have hbsc : 1 ≤ bs.countP (fun e => e.len == b.len) := by
    rw [hsplitc, hAzero, List.countP_cons_of_pos _ _ (by simp)] at hcnt
    omega
  have hpw : (b :: bs).Pairwise scoreLEP :=
    List.Pairwise.sublist
      (hd ▸ @List.dropWhile_sublist Cmdname (sortScore scored) (fun e => e.len == 0))
      (sortScore_pairwise scored)
  obtain ⟨x, hxmem, hxlen⟩ :=
    List.countP_pos_iff.mp (by omega : 0 < bs.countP (fun e => e.len == b.len))
  have hbsne : bs ≠ [] := by
    intro hq
    rw [hq] at hxmem
    exact absurd hxmem (List.not_mem_nil x)
  obtain ⟨h1, bs', hbs⟩ := List.exists_cons_of_ne_nil hbsne
  subst hbs
  have hx' : x.len = b.len := by simpa using hxlen
  have hh1 : h1.len = b.len := by
    rcases List.mem_cons.mp hxmem with rfl | hx2
    · exact hx'
    · have hpw2 : (h1 :: bs').Pairwise scoreLEP := (List.pairwise_cons.mp hpw).2
      have h12 := (List.pairwise_cons.mp hpw2).1 x hx2
      have hb1 : b.len ≤ h1.len := by
        rcases (List.pairwise_cons.mp hpw).1 h1 (List.mem_cons_self _ _) with hlt | ⟨heq', -⟩
        · exact Nat.le_of_lt hlt
        · exact Nat.le_of_eq heq'
      rcases h12 with hlt | ⟨heq', -⟩
      · omega
      · omega
  have ht : 1 ≤ ((h1 :: bs').takeWhile (fun e => e.len == b.len)).length := by
    rw [List.takeWhile_cons, if_pos (by simp [hh1])]
    simp
  have hlen : 2 ≤ (sortScore scored).length := by
    have h2 := congrArg List.length hz
    simp only [List.length_append, List.length_cons] at h2
    omega
  have hsne : sortScore scored ≠ [] := by
    intro hq
    rw [hq] at hlen
    simp at hlen
  unfold help_unknown_cmd
  split
  · rename_i heq2
    rw [hs] at heq2
    exact Option.noConfusion heq2
  · rename_i scored2 heq2
    rw [hs] at heq2
    injection heq2 with heq2
    subst heq2
    rw [dif_neg hsne, bestN_cons hd]
    rw [if_neg (by
      rintro ⟨-, hn1, -⟩
      dsimp only at hn1
      omega)]
    rw [if_pos (by dsimp only; exact hbest)]
    refine ⟨_, rfl, ?_⟩
    simp only [List.length_map, List.length_take]
    rw [le_min_iff]
    exact ⟨by omega, hlen⟩

/-- Witness for C4 at a two-entry catalog tied at score 2 for input "x". -/
theorem C4_witness :
    scoreEntries "x" (fun _ _ => 1) [] [(⟨"aa", 2⟩ : Cmdname), ⟨"ab", 2⟩]
      = some [⟨"aa", 2⟩, ⟨"ab", 2⟩] ∧
    (1 : Int) ≠ 0 ∧
    (sortScore [(⟨"aa", 2⟩ : Cmdname), ⟨"ab", 2⟩]).dropWhile (fun e => e.len == 0)
      = [⟨"aa", 2⟩, ⟨"ab", 2⟩] ∧
    (⟨"aa", 2⟩ : Cmdname).len < SIMILARITY_FLOOR ∧
    2 ≤ [(⟨"aa", 2⟩ : Cmdname), ⟨"ab", 2⟩].countP
      (fun e => e.len == (⟨"aa", 2⟩ : Cmdname).len) ∧
    ∃ ns, help_unknown_cmd "x" (fun _ _ => 1) [] [⟨"aa", 2⟩, ⟨"ab", 2⟩] 1
        = Outcome.suggestions ns ∧ 2 ≤ ns.length := by
  refine ⟨by decide, by decide, by decide, by decide, by decide, ?_⟩
  exact C4_tie_refuses_auto_accept "x" (fun _ _ => 1) [] [⟨"aa", 2⟩, ⟨"ab", 2⟩] 1
    [⟨"aa", 2⟩, ⟨"ab", 2⟩] ⟨"aa", 2⟩ [⟨"ab", 2⟩]
    (by decide) (by decide) (by decide) (by decide) (by decide)

/-- Claim C5: when the merged catalog is non-empty and every entry was
scored 0 (every entry is a common-command prefix match of the input), the
engine neither auto-accepts nor lists suggestions: the effective best
similarity is forced above the floor and only the plain
not-a-git-command failure is reported. -/
theorem C5_all_zero_not_found
    (cmd : String) (lev : String → String → Nat) (common : List String)
    (catalog : List Cmdname) (autocorrect : Int) (scored : List Cmdname)
    (hs : scoreEntries cmd lev common catalog = some scored)
    (hne : scored ≠ [])
    (hall : ∀ e ∈ scored, e.len = 0) :
    help_unknown_cmd cmd lev common catalog autocorrect = Outcome.notFound := by
  have hall' : ∀ e ∈ sortScore scored, e.len = 0 :=
    fun e he => hall e (mem_sortScore.mp he)
  have hsne : sortScore scored ≠ [] := by
    intro hq
    have h2 := length_sortScore scored
    rw [hq] at h2
    exact hne (List.length_eq_zero.mp h2.symm)
  unfold help_unknown_cmd
  split
  · rename_i heq2
    rw [hs] at heq2
    exact Option.noConfusion heq2
  · rename_i scored2 heq2
    rw [hs] at heq2
    injection heq2 with heq2
    subst heq2
    rw [dif_neg hsne, bestN_all_zero hall']
    simp [SIMILARITY_FLOOR]

/-- Witness for C5 at the catalog ["aa", "ab"], both common zero-score
prefix matches of the input "a", with autocorrect on. -/
theorem C5_witness :
    scoreEntries "a" (fun _ _ => 3) ["aa", "ab"] [(⟨"aa", 2⟩ : Cmdname), ⟨"ab", 2⟩]
      = some [⟨"aa", 0⟩, ⟨"ab", 0⟩] ∧
    ([(⟨"aa", 0⟩ : Cmdname), ⟨"ab", 0⟩] ≠ []) ∧
    (∀ e ∈ [(⟨"aa", 0⟩ : Cmdname), ⟨"ab", 0⟩], e.len = 0) ∧
    help_unknown_cmd "a" (fun _ _ => 3) ["aa", "ab"] [⟨"aa", 2⟩, ⟨"ab", 2⟩] 1
      = Outcome.notFound := by
  refine ⟨by decide, by decide, by decide, ?_⟩
  exact C5_all_zero_not_found "a" (fun _ _ => 3) ["aa", "ab"] [⟨"aa", 2⟩, ⟨"ab", 2⟩] 1
    [⟨"aa", 0⟩, ⟨"ab", 0⟩] (by decide) (by decide) (by decide)

theorem specScore_of_not {cmd : String} {lev : String → String → Nat}
    {cs : List String} {s : String}
    (h : ¬(s ∈ cs ∧ starts_with s cmd = true)) :
    specScore cmd lev cs s = lev cmd s + 1 := by
  unfold specScore
  rw [if_neg h]

/-- Claim C6: with the catalog and the common-command table both sorted,
every common-command entry of which the input is a prefix scores exactly
0, every other entry scores the edit distance plus one — hence at least
1 — and in the re-sorted catalog every zero-score prefix match precedes
every positive-score entry. -/
theorem C6_prefix_bonus
    (cmd : String) (lev : String → String → Nat) (common : List String)
    (catalog : List Cmdname) (scored : List Cmdname)
    (hcat : NameSorted catalog) (hcom : StrSorted common)
    (hs : scoreEntries cmd lev common catalog = some scored) :
    (∀ e ∈ scored,
      (e.name ∈ common ∧ starts_with e.name cmd = true → e.len = 0) ∧
      (¬(e.name ∈ common ∧ starts_with e.name cmd = true) →
        e.len = lev cmd e.name + 1 ∧ 1 ≤ e.len)) ∧
    (sortScore scored).Pairwise (fun a b => b.len = 0 → a.len = 0) := by
  have hne := scoreEntries_names_ne hs
  have hmapeq := @scoreEntries_eq_map cmd lev catalog common hcat hcom hne
  rw [hs] at hmapeq
  injection hmapeq with hmapeq
  subst hmapeq
  constructor
  · intro e he
    obtain ⟨x, hx, rfl⟩ := List.mem_map.mp he
    dsimp only
    constructor
    · rintro ⟨h1, h2⟩
      exact specScore_of_mem_starts h1 h2
    · intro h1
      rw [specScore_of_not h1]
      omega
  · refine List.Pairwise.imp ?_ (sortScore_pairwise _)
    intro a b hab hb0
    rcases hab with h | ⟨h, -⟩
    · rw [hb0] at h
      exact absurd h (Nat.not_lt_zero _)
    · rw [h, hb0]

/-- Witness for C6 at the sorted catalog ["checkout", "cherry"] with
"checkout" common, input "check" and a constant edit distance of 4. -/
theorem C6_witness :
    NameSorted [(⟨"checkout", 8⟩ : Cmdname), ⟨"cherry", 6⟩] ∧
    StrSorted ["checkout"] ∧
    scoreEntries "check" (fun _ _ => 4) ["checkout"]
        [(⟨"checkout", 8⟩ : Cmdname), ⟨"cherry", 6⟩]
      = some [⟨"checkout", 0⟩, ⟨"cherry", 5⟩] ∧
    ((∀ e ∈ [(⟨"checkout", 0⟩ : Cmdname), ⟨"cherry", 5⟩],
      (e.name ∈ ["checkout"] ∧ starts_with e.name "check" = true → e.len = 0) ∧
      (¬(e.name ∈ ["checkout"] ∧ starts_with e.name "check" = true) →
        e.len = 5 ∧ 1 ≤ e.len)) ∧
    (sortScore [(⟨"checkout", 0⟩ : Cmdname), ⟨"cherry", 5⟩]).Pairwise
      (fun a b => b.len = 0 → a.len = 0)) := by
  have h1 : NameSorted [(⟨"checkout", 8⟩ : Cmdname), ⟨"cherry", 6⟩] := by
    unfold NameSorted
    decide
  have h2 : StrSorted ["checkout"] := by
    unfold StrSorted
    decide
  have h3 : scoreEntries "check" (fun _ _ => 4) ["checkout"]
      [(⟨"checkout", 8⟩ : Cmdname), ⟨"cherry", 6⟩]
      = some [⟨"checkout", 0⟩, ⟨"cherry", 5⟩] := by decide
  exact ⟨h1, h2, h3,
    C6_prefix_bonus "check" (fun _ _ => 4) ["checkout"]
      [⟨"checkout", 8⟩, ⟨"cherry", 6⟩] [⟨"checkout", 0⟩, ⟨"cherry", 5⟩] h1 h2 h3⟩

/-- Claim C7: on sorted, duplicate-free catalogs, `exclude_cmds` removes
exactly the entries whose name occurs among the excludes: no survivor's
name occurs there, and every entry whose name does not occur survives. -/
theorem C7_exclusion_correct (cmds excludes : List Cmdname)
    (hc : NameSorted cmds) (he : NameSorted excludes) :
    (∀ e ∈ exclude_cmds cmds excludes, e.name ∉ excludes.map (fun x => x.name)) ∧
    (∀ e ∈ cmds, e.name ∉ excludes.map (fun x => x.name) →
      e ∈ exclude_cmds cmds excludes) := by
  rw [exclude_cmds_eq_filter cmds excludes hc he]
  constructor
  · intro e he2
    obtain ⟨hmem2, hpred⟩ := List.mem_filter.mp he2
    intro hin
    obtain ⟨y, hy, hyname⟩ := List.mem_map.mp hin
    have h2 : is_in_cmdlist excludes e.name = true :=
      is_in_cmdlist_iff.mpr ⟨y, hy, hyname⟩
    rw [h2] at hpred
    exact Bool.noConfusion hpred
  · intro e he2 hnin
    refine List.mem_filter.mpr ⟨he2, ?_⟩
    have h2 : is_in_cmdlist excludes e.name = false := by
      cases hv : is_in_cmdlist excludes e.name with
      | false => rfl
      | true =>
        obtain ⟨y, hy, hyname⟩ := is_in_cmdlist_iff.mp hv
        exact absurd (List.mem_map.mpr ⟨y, hy, hyname⟩) hnin
    rw [h2]
    rfl

/-- Witness for C7 at cmds = [add, commit, push], excludes =
[commit, fetch]. -/
theorem C7_witness :
    NameSorted [(⟨"add", 3⟩ : Cmdname), ⟨"commit", 6⟩, ⟨"push", 4⟩] ∧
    NameSorted [(⟨"commit", 6⟩ : Cmdname), ⟨"fetch", 5⟩] ∧
    ((∀ e ∈ exclude_cmds [(⟨"add", 3⟩ : Cmdname), ⟨"commit", 6⟩, ⟨"push", 4⟩]
        [⟨"commit", 6⟩, ⟨"fetch", 5⟩],
      e.name ∉ [(⟨"commit", 6⟩ : Cmdname), ⟨"fetch", 5⟩].map (fun x => x.name)) ∧
    (∀ e ∈ [(⟨"add", 3⟩ : Cmdname), ⟨"commit", 6⟩, ⟨"push", 4⟩],
      e.name ∉ [(⟨"commit", 6⟩ : Cmdname), ⟨"fetch", 5⟩].map (fun x => x.name) →
        e ∈ exclude_cmds [(⟨"add", 3⟩ : Cmdname), ⟨"commit", 6⟩, ⟨"push", 4⟩]
          [⟨"commit", 6⟩, ⟨"fetch", 5⟩])) := by
  have h1 : NameSorted [(⟨"add", 3⟩ : Cmdname), ⟨"commit", 6⟩, ⟨"push", 4⟩] := by
    unfold NameSorted
    decide
  have h2 : NameSorted [(⟨"commit", 6⟩ : Cmdname), ⟨"fetch", 5⟩] := by
    unfold NameSorted
    decide
  exact ⟨h1, h2, C7_exclusion_correct _ _ h1 h2⟩

/-- Claim C8: on sorted, duplicate-free catalogs — the empty ones
included — the two-pointer merge `exclude_cmds` computes exactly what the
naive quadratic filter over the `is_in_cmdlist` membership scan
computes. -/
theorem C8_merge_equiv_naive (cmds excludes : List Cmdname)
    (hc : NameSorted cmds) (he : NameSorted excludes) :
    exclude_cmds cmds excludes =
      cmds.filter (fun x => !(is_in_cmdlist excludes x.name)) :=
  exclude_cmds_eq_filter cmds excludes hc he

/-- Witness for C8 at cmds = [a, b, c], excludes = [b, d]. -/
theorem C8_witness :
    NameSorted [(⟨"a", 1⟩ : Cmdname), ⟨"b", 1⟩, ⟨"c", 1⟩] ∧
    NameSorted [(⟨"b", 0⟩ : Cmdname), ⟨"d", 0⟩] ∧
    exclude_cmds [(⟨"a", 1⟩ : Cmdname), ⟨"b", 1⟩, ⟨"c", 1⟩] [⟨"b", 0⟩, ⟨"d", 0⟩]
      = [(⟨"a", 1⟩ : Cmdname), ⟨"b", 1⟩, ⟨"c", 1⟩].filter
          (fun x => !(is_in_cmdlist [(⟨"b", 0⟩ : Cmdname), ⟨"d", 0⟩] x.name)) := by
  have h1 : NameSorted [(⟨"a", 1⟩ : Cmdname), ⟨"b", 1⟩, ⟨"c", 1⟩] := by
    unfold NameSorted
    decide
  have h2 : NameSorted [(⟨"b", 0⟩ : Cmdname), ⟨"d", 0⟩] := by
    unfold NameSorted
    decide
  exact ⟨h1, h2, C8_merge_equiv_naive _ _ h1 h2⟩

/-- Claim C9: `uniq` collapses every maximal run of consecutive
equal-name entries to the run's first entry, and on a name-sorted,
duplicate-free catalog it is the identity — hence deduplicating an
already-deduplicated sorted catalog changes nothing. -/
theorem C9_dedup (l : List Cmdname) :
    uniq l = collapseRuns l ∧ (NameSorted l → uniq l = l) :=
  ⟨uniq_eq_collapseRuns l, fun h => uniq_of_sorted h⟩

/-- Witness for C9 at the sorted duplicate-free catalog
[commit, status]. -/
theorem C9_witness :
    uniq [(⟨"commit", 6⟩ : Cmdname), ⟨"status", 6⟩]
      = collapseRuns [(⟨"commit", 6⟩ : Cmdname), ⟨"status", 6⟩] ∧
    NameSorted [(⟨"commit", 6⟩ : Cmdname), ⟨"status", 6⟩] ∧
    uniq [(⟨"commit", 6⟩ : Cmdname), ⟨"status", 6⟩]
      = [⟨"commit", 6⟩, ⟨"status", 6⟩] := by
  have h1 : NameSorted [(⟨"commit", 6⟩ : Cmdname), ⟨"status", 6⟩] := by
    unfold NameSorted
    decide
  exact ⟨(C9_dedup _).1, h1, (C9_dedup _).2 h1⟩

/-- Claim C10: whenever `help_unknown_cmd` returns normally — the
auto-accept path, its only non-terminating outcome — the returned name
belongs to the merged catalog it ranked and differs from the input
command name. -/
theorem C10_auto_accept_sound
    (cmd : String) (lev : String → String → Nat) (common : List String)
    (catalog : List Cmdname) (autocorrect : Int) (s : String)
    (h : help_unknown_cmd cmd lev common catalog autocorrect = Outcome.autoAccepted s) :
    s ∈ catalog.map (fun x => x.name) ∧ s ≠ cmd := by
  unfold help_unknown_cmd at h
  split at h
  · simp at h
  · rename_i scored heq
    split at h
    · simp at h
    · rename_i hnil
      split at h
      · simp only [Outcome.autoAccepted.injEq] at h
        subst h
        have hhead : (sortScore scored).head hnil ∈ sortScore scored :=
          List.head_mem hnil
        have hmem2 : (sortScore scored).head hnil ∈ scored := mem_sortScore.mp hhead
        have hmap := scoreEntries_map_name heq
        have hin : ((sortScore scored).head hnil).name ∈ catalog.map (fun x => x.name) := by
          rw [← hmap]
          exact List.mem_map_of_mem _ hmem2
        refine ⟨hin, ?_⟩
        obtain ⟨y, hy, hyname⟩ := List.mem_map.mp hin
        intro hcontra
        exact scoreEntries_names_ne heq y hy (hyname.trans hcontra)
      · split at h
        · simp at h
        · simp at h

/-- Witness for C10 at the one-entry catalog [status] with input "stats",
constant edit distance 2 and autocorrect on: the engine auto-accepts
"status", which is a catalog name and differs from the input. -/
theorem C10_witness :
    help_unknown_cmd "stats" (fun _ _ => 2) [] [(⟨"status", 6⟩ : Cmdname)] 1
      = Outcome.autoAccepted "status" ∧
    ("status" ∈ [(⟨"status", 6⟩ : Cmdname)].map (fun x => x.name) ∧
      "status" ≠ "stats") := by
  refine ⟨by decide, ?_⟩
  exact C10_auto_accept_sound "stats" (fun _ _ => 2) [] [⟨"status", 6⟩] 1 "status"
    (by decide)
